import Mathlib

/-
Verification of the CovidDashboardHomework backend pipeline: a shallow
embedding of backend/app/services/data_processor.py,
backend/app/crud/crud_region_data.py and the orchestration in
backend/app/api/api_v1/endpoints/regions.py, with theorems checking the
natural-language specification against the code.
-/

namespace CovidDashboard

/-- Calendar date (year, month, day), the value of a Python `date`. -/
structure PyDate where
  year : Nat
  month : Nat
  day : Nat
deriving DecidableEq

/-- Model of a JSON/CSV cell as seen through Python `dict.get`: an absent key
and a `None` value collapse to `noneV`; numeric cells are ints, text cells
strings.  The `denominazione_provincia` cell only feeds log messages and is
not modelled. -/
inductive RawValue where
  | noneV : RawValue
  | intV : Int → RawValue
  | strV : String → RawValue
deriving DecidableEq

/-- One raw province record, the element type of `raw_data_list`. -/
structure RawRecord where
  data : RawValue
  codice_regione : RawValue
  denominazione_regione : RawValue
  totale_casi : RawValue
deriving DecidableEq

/-- One regional row: both the aggregated output shape of
`process_provincial_data` and the persisted `RegionalCovidData` entity (the
autoincrement surrogate `id` column is not modelled). -/
structure Row where
  submission_date : PyDate
  region_code : String
  region_name : String
  total_positive_cases : Int
deriving DecidableEq

/-- Characters Python `str.strip()` removes. -/
def isPySpace (c : Char) : Bool :=
  c == ' ' || c == '\t' || c == '\n' || c == '\r' || c.toNat == 11 || c.toNat == 12

/-- Strip leading and trailing whitespace from a character list. -/
def trimChars (cs : List Char) : List Char :=
  ((cs.dropWhile isPySpace).reverse.dropWhile isPySpace).reverse

/-- Python `str.strip()`. -/
def pyStrip (s : String) : String := String.mk (trimChars s.data)

/-- Value of a decimal digit character. -/
def digitVal (c : Char) : Option Nat :=
  if 48 ≤ c.toNat ∧ c.toNat ≤ 57 then some (c.toNat - 48) else none

/-- Reads a non-empty run of decimal digits as a number. -/
def digitsToNatAux : List Char → Nat → Option Nat
  | [], acc => some acc
  | c :: cs, acc =>
    match digitVal c with
    | some d => digitsToNatAux cs (10 * acc + d)
    | none => none

/-- Reads a non-empty all-digit character list as a number. -/
def digitsToNat : List Char → Option Nat
  | [] => none
  | c :: cs => digitsToNatAux (c :: cs) 0

/-- Model of Python `int(str)`: surrounding whitespace stripped, an optional
sign, then decimal digits (underscore digit grouping is not modelled). -/
def pyParseInt (s : String) : Option Int :=
  match trimChars s.data with
  | '-' :: cs => (digitsToNat cs).map (fun n => -(n : Int))
  | '+' :: cs => (digitsToNat cs).map (fun n => (n : Int))
  | cs => (digitsToNat cs).map (fun n => (n : Int))

/-- Days in a month under the Gregorian leap rule, as Python `date` validates. -/
def daysInMonth (y m : Nat) : Nat :=
  if m = 2 then
    if y % 4 = 0 ∧ (y % 100 ≠ 0 ∨ y % 400 = 0) then 29 else 28
  else if m = 4 ∨ m = 6 ∨ m = 9 ∨ m = 11 then 30
  else 31

/-- Model of `datetime.fromisoformat(...).date()` restricted to the
`YYYY-MM-DD` shape the upstream feed emits. -/
def fromisoformatDate (s : String) : Option PyDate :=
  match s.data with
  | [y1, y2, y3, y4, h1, m1, m2, h2, d1, d2] =>
    if h1 == '-' && h2 == '-' then
      match digitsToNat [y1, y2, y3, y4], digitsToNat [m1, m2], digitsToNat [d1, d2] with
      | some y, some m, some d =>
        if 1 ≤ m ∧ m ≤ 12 ∧ 1 ≤ d ∧ d ≤ daysInMonth y m then some ⟨y, m, d⟩ else none
      | _, _, _ => none
    else none
  | _ => none

/-- Python `date_str.split('T')[0]`: the prefix before the first `T`. -/
def splitT (s : String) : String := String.mk (s.data.takeWhile (fun c => c != 'T'))

/-- Embeds `_parse_date_from_string`: the ISO date-time string's date part;
`none` models the raised `DataProcessingError`. -/
def parse_date_from_string (s : String) : Option PyDate :=
  fromisoformatDate (splitT s)

/-- Python truthiness of a raw cell: `None`, `""` and `0` are falsy. -/
def truthy : RawValue → Bool
  | .noneV => false
  | .intV n => n != 0
  | .strV s => !s.data.isEmpty

/-- Python `str(value)` for the cell values that occur in the feed. -/
def pyStr : RawValue → String
  | .noneV => "None"
  | .intV n => toString n
  | .strV s => s

/-- Embeds `_get_int_value`: a `None` or blank-string cell counts as 0, an
integer cell passes through, any other string must parse as a Python int;
`none` models the raised `DataProcessingError`. -/
def get_int_value : RawValue → Option Int
  | .noneV => some 0
  | .intV n => some n
  | .strV s => if (trimChars s.data).isEmpty then some 0 else pyParseInt s

/-- Date stage of one loop iteration of `process_provincial_data`: a falsy
`data` cell raises before parsing, a truthy non-string cell fails
`str.split` (the generic handler skips the record), otherwise the ISO parse
decides.  `none` exactly when the record is skipped without a parsed date. -/
def recordParsedDate (r : RawRecord) : Option PyDate :=
  match r.data with
  | .strV s => if s.data.isEmpty then none else parse_date_from_string s
  | _ => none

/-- Region-code, region-name and case-count stages of one loop iteration;
`none` models any raised error (the record is skipped). -/
def normalizeRest (r : RawRecord) : Option (String × String × Int) :=
  match r.codice_regione with
  | .noneV => none
  | cv =>
    let code := pyStrip (pyStr cv)
    if code.data.isEmpty then none
    else if !truthy r.denominazione_regione then none
    else
      let name := pyStrip (pyStr r.denominazione_regione)
      if name.data.isEmpty then none
      else
        match get_int_value r.totale_casi with
        | none => none
        | some n => some (code, name, n)

/-- One aggregation step on the defaultdict keyed by region code: a fresh key
materializes an entry carrying the adopted report date and first-seen name,
and the province count is added to the entry's running total. -/
def addToAgg : List (String × Row) → String → PyDate → String → Int → List (String × Row)
  | [], key, rd, name, n => [(key, ⟨rd, key, name, n⟩)]
  | (k, e) :: rest, key, rd, name, n =>
    if k = key then
      (k, { e with total_positive_cases := e.total_positive_cases + n }) :: rest
    else
      (k, e) :: addToAgg rest key rd name n

/-- One iteration of the processing loop over the state
(adopted report date, accumulator).  The report date is adopted from the
first record whose date cell parses, before the remaining validations run. -/
def step (st : Option PyDate × List (String × Row)) (r : RawRecord) :
    Option PyDate × List (String × Row) :=
  match recordParsedDate r with
  | none => st
  | some dt =>
    let rd := st.1.getD dt
    match normalizeRest r with
    | none => (some rd, st.2)
    | some (code, name, n) => (some rd, addToAgg st.2 code rd name n)

/-- Embeds `process_provincial_data`: folds the records through the
normalization/aggregation loop and returns the accumulator's values in
insertion order (Python dict order). -/
def process_provincial_data (l : List RawRecord) : List Row :=
  ((l.foldl step ((none : Option PyDate), ([] : List (String × Row)))).2).map Prod.snd

/-- Full normalization of one raw record: its parsed date together with the
field stages.  `some` exactly when the record contributes to aggregation. -/
def normalizeFull (r : RawRecord) : Option Row :=
  match recordParsedDate r, normalizeRest r with
  | some d, some (code, name, n) => some ⟨d, code, name, n⟩
  | _, _ => none

/-- Date of the first record whose date cell parses, in input order. -/
def firstParsedDate : List RawRecord → Option PyDate
  | [] => none
  | r :: l =>
    match recordParsedDate r with
    | some d => some d
    | none => firstParsedDate l

/-- Total positive cases an output row list assigns to one region code. -/
def regionTotal (out : List Row) (c : String) : Int :=
  ((out.filter (fun e => decide (e.region_code = c))).map
    (fun e => e.total_positive_cases)).sum

/-- Total over an accumulator's entries for one region code. -/
def aggTotal (agg : List (String × Row)) (c : String) : Int :=
  ((agg.filter (fun p => decide (p.1 = c))).map
    (fun p => p.2.total_positive_cases)).sum

/-- Sum of the normalized case counts of the records that normalize
successfully and carry region code `c`. -/
def canonSum (l : List RawRecord) (c : String) : Int :=
  (((l.filterMap normalizeFull).filter (fun q => decide (q.region_code = c))).map
    (fun q => q.total_positive_cases)).sum

/-- Region codes of the successfully normalized records, in input order. -/
def succCodes (l : List RawRecord) : List String :=
  (l.filterMap normalizeFull).map (fun q => q.region_code)

/-- Folds codes into an accumulator keeping only first occurrences, in order. -/
def dedupInto (acc : List String) (cs : List String) : List String :=
  cs.foldl (fun a c => if c ∈ a then a else a ++ [c]) acc

/-- The stored table, in insertion order. -/
abbrev Store := List Row

/-- Embeds `data_exists_for_date`: is any row stored under this date. -/
def data_exists_for_date (s : Store) (d : PyDate) : Bool :=
  s.any (fun r => decide (r.submission_date = d))

/-- Embeds `get_by_date_and_region_code`: first stored row with this date
and region code. -/
def get_by_date_and_region_code (s : Store) (d : PyDate) (c : String) : Option Row :=
  s.find? (fun r => decide (r.submission_date = d ∧ r.region_code = c))

/-- One iteration of the `create_or_update_bulk` loop: the first stored row
matching the incoming row's (submission_date, region_code) has its fields
overwritten in place; with no match the row is added to the session. -/
def upsertOne : Store → Row → Store
  | [], r => [r]
  | x :: xs, r =>
    if x.submission_date = r.submission_date ∧ x.region_code = r.region_code then r :: xs
    else x :: upsertOne xs r

/-- Session state after the per-item loop of `create_or_update_bulk`. -/
def applyBatch (s : Store) (b : List Row) : Store :=
  b.foldl upsertOne s

/-- Two rows that together violate the table's
`UniqueConstraint('submission_date', 'region_name')`. -/
def nameKeyClash (x y : Row) : Bool :=
  decide (x.submission_date = y.submission_date ∧ x.region_name = y.region_name)

/-- Does a store hold two rows with the same (submission_date, region_name). -/
def hasDupName : Store → Bool
  | [] => false
  | x :: xs => xs.any (nameKeyClash x) || hasDupName xs

/-- Embeds `create_or_update_bulk`: the per-item upsert loop followed by one
commit; `none` models the commit raising (the transaction rolled back and
the error re-raised), which happens exactly when the session state violates
the table's unique constraint. -/
def create_or_update_bulk (s : Store) (b : List Row) : Option Store :=
  let s2 := applyBatch s b
  if hasDupName s2 then none else some s2

/-- Store the caller observes after `create_or_update_bulk`: the committed
session on success, the rolled-back original on failure. -/
def postStore (s : Store) (b : List Row) : Store :=
  match create_or_update_bulk s b with
  | some s2 => s2
  | none => s

/-- Does a store hold a row with the incoming row's (date, code) key. -/
def hasKeyCode (s : Store) (r : Row) : Bool :=
  s.any (fun x => decide (x.submission_date = r.submission_date ∧
    x.region_code = r.region_code))

/-- Lexicographic byte order on strings, the order the database applies to
text columns. -/
def charListLe : List Char → List Char → Bool
  | [], _ => true
  | _ :: _, [] => false
  | c :: cs, d :: ds =>
    if c.toNat < d.toNat then true
    else if d.toNat < c.toNat then false
    else charListLe cs ds

/-- String comparison used by the sort model. -/
def strLe (a b : String) : Bool := charListLe a.data b.data

/-- Date column order. -/
def dateLe (a b : PyDate) : Bool :=
  if a.year < b.year then true
  else if b.year < a.year then false
  else if a.month < b.month then true
  else if b.month < a.month then false
  else decide (a.day ≤ b.day)

/-- Mapped columns of `RegionalCovidData`, exactly the names
`getattr(RegionalCovidData, sort_by, None)` resolves to a Column. -/
def mappedColumns : List String :=
  ["id", "submission_date", "region_code", "region_name", "total_positive_cases"]

/-- Truthy non-column class attributes reachable through the same `getattr`
(a representative list): for these the source builds `asc(...)`/`desc(...)`
over a non-column value and the query raises instead of falling back.  A
name outside `mappedColumns` and `nonColumnAttrs` is modelled as
unresolvable (`getattr` returns the `None` default). -/
def nonColumnAttrs : List String :=
  ["metadata", "registry", "__tablename__", "__table__", "__table_args__",
   "__mapper__", "__init__", "__repr__", "__class__", "__dict__", "__module__"]

/-- Ascending comparison by one named data column (`id` is dispatched
separately: its order is the store's insertion order). -/
def colLe : String → Row → Row → Bool
  | "submission_date", a, b => dateLe a.submission_date b.submission_date
  | "region_code", a, b => strLe a.region_code b.region_code
  | "region_name", a, b => strLe a.region_name b.region_name
  | _, a, b => decide (a.total_positive_cases ≤ b.total_positive_cases)

/-- Default ordering of `get_by_date`: `total_positive_cases` descending,
then `region_name` ascending. -/
def defaultLe (a b : Row) : Bool :=
  if a.total_positive_cases = b.total_positive_cases then strLe a.region_name b.region_name
  else decide (b.total_positive_cases ≤ a.total_positive_cases)

/-- The default order as a relation, for the sort. -/
def defaultRel : Row → Row → Prop := fun a b => defaultLe a b = true

instance : DecidableRel defaultRel := fun a b => instDecidableEqBool (defaultLe a b) true

/-- Ascending order by the named column, as a relation. -/
def colRel (f : String) : Row → Row → Prop := fun a b => colLe f a b = true

instance (f : String) : DecidableRel (colRel f) :=
  fun a b => instDecidableEqBool (colLe f a b) true

/-- Descending order by the named column, as a relation. -/
def colRelDesc (f : String) : Row → Row → Prop := fun a b => colLe f b a = true

instance (f : String) : DecidableRel (colRelDesc f) :=
  fun a b => instDecidableEqBool (colLe f b a) true

/-- Embeds `get_by_date`: rows of the given date; `getattr` dispatch on
`sort_by` — a mapped column sorts by it in the requested direction, a
truthy non-column attribute makes the query raise (`none`), and an
unresolvable name (or no `sort_by` at all) yields the default order.  The
store list is kept in surrogate-id (autoincrement insertion) order —
updates are in place, inserts append — so ordering by the `id` column
ascending is the date-filtered list itself, and descending its reverse. -/
def get_by_date (s : Store) (d : PyDate) (sort_by : Option String)
    (sort_order : String) : Option (List Row) :=
  let q := s.filter (fun r => decide (r.submission_date = d))
  match sort_by with
  | some f =>
    if f ∈ mappedColumns then
      if f = "id" then
        if sort_order = "asc" then some q else some q.reverse
      else
        if sort_order = "asc" then some (List.insertionSort (colRel f) q)
        else some (List.insertionSort (colRelDesc f) q)
    else if f ∈ nonColumnAttrs then none
    else some (List.insertionSort defaultRel q)
  | none => some (List.insertionSort defaultRel q)

/-- Behaviour of one upstream fetch, as the orchestration observes it. -/
inductive FetchResult where
  | notFound : FetchResult
  | transportError : FetchResult
  | ok : List RawRecord → FetchResult
deriving DecidableEq

/-- The orchestration's failure outcomes. -/
inductive PipelineError where
  | sourceDataUnavailable : PipelineError
  | upstreamFailure : PipelineError
  | processingFailure : PipelineError
  | storageFailure : PipelineError
  | internalError : PipelineError
deriving DecidableEq

/-- HTTP status carried by each failure outcome. -/
def httpStatus : PipelineError → Nat
  | .sourceDataUnavailable => 404
  | .upstreamFailure => 502
  | .processingFailure => 500
  | .storageFailure => 500
  | .internalError => 500

/-- Pydantic validation of `RegionalDataCreate` (`model_validate`):
region_code 1–3 characters, region_name non-empty,
total_positive_cases ≥ 0. -/
def schemaValid (r : Row) : Bool :=
  decide (1 ≤ r.region_code.data.length ∧ r.region_code.data.length ≤ 3 ∧
    1 ≤ r.region_name.data.length ∧ 0 ≤ r.total_positive_cases)

/-- Embeds `ensure_data_is_available`: the call's result, the store after
the call, and the number of upstream fetches performed.  The fetcher's
behaviour for the call is the `fr` argument; the processed list's head
always carries a date, so the unreachable missing-date branch of the code
is not modelled. -/
def ensure_data_is_available (s : Store) (d : PyDate) (fr : FetchResult) :
    Option PipelineError × Store × Nat :=
  if data_exists_for_date s d then (none, s, 0)
  else
    match fr with
    | .notFound => (some .sourceDataUnavailable, s, 1)
    | .transportError => (some .upstreamFailure, s, 1)
    | .ok raw =>
      if raw.isEmpty then (some .sourceDataUnavailable, s, 1)
      else
        match process_provincial_data raw with
        | [] => (some .processingFailure, s, 1)
        | p :: ps =>
          if data_exists_for_date s p.submission_date then (none, s, 1)
          else if (p :: ps).all schemaValid then
            match create_or_update_bulk s (p :: ps) with
            | some s2 => (none, s2, 1)
            | none => (some .storageFailure, s, 1)
          else (some .internalError, s, 1)

/-! Aggregation lemmas: how the accumulator totals, keys and dates evolve. -/

theorem aggTotal_nil (c : String) : aggTotal [] c = 0 := rfl

theorem aggTotal_cons (k : String) (e : Row) (rest : List (String × Row)) (c : String) :
    aggTotal ((k, e) :: rest) c =
      (if k = c then e.total_positive_cases else 0) + aggTotal rest c := by
  by_cases h : k = c <;> simp [aggTotal, h]

theorem regionTotal_nil (c : String) : regionTotal [] c = 0 := rfl

theorem regionTotal_cons (e : Row) (out : List Row) (c : String) :
    regionTotal (e :: out) c =
      (if e.region_code = c then e.total_positive_cases else 0) + regionTotal out c := by
  by_cases h : e.region_code = c <;> simp [regionTotal, h]

theorem aggTotal_addToAgg (agg : List (String × Row)) (key : String) (rd : PyDate)
    (name : String) (n : Int) (c : String) :
    aggTotal (addToAgg agg key rd name n) c =
      aggTotal agg c + (if key = c then n else 0) := by
  induction agg with
  | nil =>
    by_cases h : key = c <;> simp [addToAgg, aggTotal_cons, aggTotal_nil, h]
  | cons p rest ih =>
    obtain ⟨k, e⟩ := p
    by_cases hk : k = key
    · subst hk
      by_cases h : k = c
      · simp [addToAgg, aggTotal_cons, h]; ring
      · simp [addToAgg, aggTotal_cons, h]
    · simp only [addToAgg, if_neg hk, aggTotal_cons, ih]
      ring

theorem canonSum_nil (c : String) : canonSum [] c = 0 := rfl

theorem canonSum_cons (r : RawRecord) (l : List RawRecord) (c : String) :
    canonSum (r :: l) c =
      (match normalizeFull r with
       | some q => if q.region_code = c then q.total_positive_cases else 0
       | none => 0) + canonSum l c := by
  rcases h : normalizeFull r with _ | q
  · simp [canonSum, h]
  · by_cases hc : q.region_code = c <;> simp [canonSum, h, hc]

theorem canonSum_append (l₁ l₂ : List RawRecord) (c : String) :
    canonSum (l₁ ++ l₂) c = canonSum l₁ c + canonSum l₂ c := by
  induction l₁ with
  | nil => simp [canonSum_nil]
  | cons r l ih => rw [List.cons_append, canonSum_cons, canonSum_cons, ih]; ring

theorem aggTotal_foldl (l : List RawRecord) :
    ∀ (rd : Option PyDate) (agg : List (String × Row)) (c : String),
      aggTotal ((l.foldl step (rd, agg)).2) c = aggTotal agg c + canonSum l c := by
  induction l with
  | nil => intro rd agg c; simp [canonSum_nil]
  | cons r l ih =>
    intro rd agg c
    rw [List.foldl_cons, canonSum_cons]
    rcases hd : recordParsedDate r with _ | dt
    · have hfull : normalizeFull r = none := by simp [normalizeFull, hd]
      have hstep : step (rd, agg) r = (rd, agg) := by simp [step, hd]
      rw [hstep, ih, hfull]
      ring
    · rcases hn : normalizeRest r with _ | ⟨code, name, n⟩
      · have hfull : normalizeFull r = none := by simp [normalizeFull, hd, hn]
        have hstep : step (rd, agg) r = (some (rd.getD dt), agg) := by
          simp [step, hd, hn]
        rw [hstep, ih, hfull]
        ring
      · have hfull : normalizeFull r = some ⟨dt, code, name, n⟩ := by
          simp [normalizeFull, hd, hn]
        have hstep : step (rd, agg) r =
            (some (rd.getD dt), addToAgg agg code (rd.getD dt) name n) := by
          simp [step, hd, hn]
        rw [hstep, ih, aggTotal_addToAgg, hfull]
        ring

theorem key_eq_code_addToAgg (agg : List (String × Row)) (key : String) (rd : PyDate)
    (name : String) (n : Int) (h : ∀ p ∈ agg, (p : String × Row).1 = p.2.region_code) :
    ∀ p ∈ addToAgg agg key rd name n, p.1 = p.2.region_code := by
  induction agg with
  | nil => simp [addToAgg]
  | cons q rest ih =>
    obtain ⟨k, e⟩ := q
    have hk : k = e.region_code := h (k, e) (by simp)
    have hrest : ∀ p ∈ rest, (p : String × Row).1 = p.2.region_code :=
      fun p hp => h p (by simp [hp])
    by_cases hkey : k = key
    · subst hkey
      intro p hp
      rcases (by simpa [addToAgg] using hp :
          p = (k, { e with total_positive_cases := e.total_positive_cases + n }) ∨ p ∈ rest) with
        h1 | h2
      · subst h1; simpa using hk
      · exact h p (by simp [h2])
    · intro p hp
      rcases (by simpa [addToAgg, hkey] using hp : p = (k, e) ∨ p ∈ addToAgg rest key rd name n) with
        h1 | h2
      · subst h1; simpa using hk
      · exact ih hrest p h2

theorem key_eq_code_foldl (l : List RawRecord) :
    ∀ (rd : Option PyDate) (agg : List (String × Row)),
      (∀ p ∈ agg, (p : String × Row).1 = p.2.region_code) →
      ∀ p ∈ (l.foldl step (rd, agg)).2, p.1 = p.2.region_code := by
  induction l with
  | nil => intro rd agg h; simpa using h
  | cons r l ih =>
    intro rd agg h
    rw [List.foldl_cons]
    rcases hd : recordParsedDate r with _ | dt
    · rw [show step (rd, agg) r = (rd, agg) by simp [step, hd]]
      exact ih rd agg h
    · rcases hn : normalizeRest r with _ | ⟨code, name, n⟩
      · rw [show step (rd, agg) r = (some (rd.getD dt), agg) by simp [step, hd, hn]]
        exact ih _ agg h
      · rw [show step (rd, agg) r =
            (some (rd.getD dt), addToAgg agg code (rd.getD dt) name n) by simp [step, hd, hn]]
        exact ih _ _ (key_eq_code_addToAgg agg code (rd.getD dt) name n h)

theorem regionTotal_map_snd (agg : List (String × Row)) (c : String)
    (h : ∀ p ∈ agg, (p : String × Row).1 = p.2.region_code) :
    regionTotal (agg.map Prod.snd) c = aggTotal agg c := by
  induction agg with
  | nil => rfl
  | cons p rest ih =>
    obtain ⟨k, e⟩ := p
    have hk : k = e.region_code := h (k, e) (by simp)
    have hrest : ∀ p ∈ rest, (p : String × Row).1 = p.2.region_code :=
      fun p hp => h p (by simp [hp])
    rw [List.map_cons, regionTotal_cons, aggTotal_cons, hk, ih hrest]

theorem regionTotal_process (l : List RawRecord) (c : String) :
    regionTotal (process_provincial_data l) c = canonSum l c := by
  have hkeys : ∀ p ∈ (l.foldl step ((none : Option PyDate),
      ([] : List (String × Row)))).2, (p : String × Row).1 = p.2.region_code :=
    key_eq_code_foldl l none [] (by simp)
  unfold process_provincial_data
  rw [regionTotal_map_snd _ c hkeys, aggTotal_foldl, aggTotal_nil]
  ring

/-! Date adoption: the report date the loop carries and assigns to entries. -/

theorem foldl_fst_some (l : List RawRecord) :
    ∀ (d : PyDate) (agg : List (String × Row)), (l.foldl step (some d, agg)).1 = some d := by
  induction l with
  | nil => intro d agg; rfl
  | cons r l ih =>
    intro d agg
    rw [List.foldl_cons]
    rcases hd : recordParsedDate r with _ | dt
    · rw [show step (some d, agg) r = (some d, agg) by simp [step, hd]]
      exact ih d agg
    · rcases hn : normalizeRest r with _ | ⟨code, name, n⟩
      · rw [show step (some d, agg) r = (some d, agg) by simp [step, hd, hn]]
        exact ih d agg
      · rw [show step (some d, agg) r = (some d, addToAgg agg code d name n) by
          simp [step, hd, hn]]
        exact ih d _

theorem foldl_fst_none (l : List RawRecord) :
    ∀ agg : List (String × Row),
      (l.foldl step ((none : Option PyDate), agg)).1 = firstParsedDate l := by
  induction l with
  | nil => intro agg; rfl
  | cons r l ih =>
    intro agg
    rw [List.foldl_cons]
    rcases hd : recordParsedDate r with _ | dt
    · rw [show step ((none : Option PyDate), agg) r = (none, agg) by simp [step, hd]]
      rw [ih agg]
      simp [firstParsedDate, hd]
    · rcases hn : normalizeRest r with _ | ⟨code, name, n⟩
      · rw [show step ((none : Option PyDate), agg) r = (some dt, agg) by simp [step, hd, hn]]
        rw [foldl_fst_some]
        simp [firstParsedDate, hd]
      · rw [show step ((none : Option PyDate), agg) r =
            (some dt, addToAgg agg code dt name n) by simp [step, hd, hn]]
        rw [foldl_fst_some]
        simp [firstParsedDate, hd]

theorem dates_addToAgg (agg : List (String × Row)) (key : String) (d0 : PyDate)
    (name : String) (n : Int)
    (h : ∀ p ∈ agg, (p : String × Row).2.submission_date = d0) :
    ∀ p ∈ addToAgg agg key d0 name n, p.2.submission_date = d0 := by
  induction agg with
  | nil => simp [addToAgg]
  | cons q rest ih =>
    obtain ⟨k, e⟩ := q
    have hk : e.submission_date = d0 := h (k, e) (by simp)
    have hrest : ∀ p ∈ rest, (p : String × Row).2.submission_date = d0 :=
      fun p hp => h p (by simp [hp])
    by_cases hkey : k = key
    · subst hkey
      intro p hp
      rcases (by simpa [addToAgg] using hp :
          p = (k, { e with total_positive_cases := e.total_positive_cases + n }) ∨ p ∈ rest) with
        h1 | h2
      · subst h1; simpa using hk
      · exact hrest p h2
    · intro p hp
      rcases (by simpa [addToAgg, hkey] using hp :
          p = (k, e) ∨ p ∈ addToAgg rest key d0 name n) with h1 | h2
      · subst h1; simpa using hk
      · exact ih hrest p h2

theorem dates_foldl (l : List RawRecord) :
    ∀ (rd : Option PyDate) (agg : List (String × Row)),
      (∀ p ∈ agg, some (p : String × Row).2.submission_date = rd) →
      ∀ p ∈ (l.foldl step (rd, agg)).2,
        some p.2.submission_date = (l.foldl step (rd, agg)).1 := by
  induction l with
  | nil => intro rd agg h; simpa using h
  | cons r l ih =>
    intro rd agg h
    rw [List.foldl_cons]
    rcases hd : recordParsedDate r with _ | dt
    · rw [show step (rd, agg) r = (rd, agg) by simp [step, hd]]
      exact ih rd agg h
    · have h' : ∀ p ∈ agg, (p : String × Row).2.submission_date = rd.getD dt := by
        intro p hp
        rcases rd with _ | d
        · exact absurd (h p hp) (by simp)
        · simpa using h p hp
      have h'' : ∀ p ∈ agg, some (p : String × Row).2.submission_date = some (rd.getD dt) :=
        fun p hp => by rw [h' p hp]
      rcases hn : normalizeRest r with _ | ⟨code, name, n⟩
      · rw [show step (rd, agg) r = (some (rd.getD dt), agg) by simp [step, hd, hn]]
        exact ih _ agg h''
      · rw [show step (rd, agg) r =
            (some (rd.getD dt), addToAgg agg code (rd.getD dt) name n) by simp [step, hd, hn]]
        refine ih _ _ ?_
        intro p hp
        rw [dates_addToAgg agg code (rd.getD dt) name n h' p hp]

/-! Output order: accumulator keys are the first occurrences of region codes. -/

theorem succCodes_nil : succCodes [] = [] := rfl

theorem succCodes_cons (r : RawRecord) (l : List RawRecord) :
    succCodes (r :: l) =
      (match normalizeFull r with
       | some q => q.region_code :: succCodes l
       | none => succCodes l) := by
  rcases h : normalizeFull r with _ | q <;> simp [succCodes, h]

theorem dedupInto_cons (acc : List String) (c : String) (cs : List String) :
    dedupInto acc (c :: cs) = dedupInto (if c ∈ acc then acc else acc ++ [c]) cs := rfl

theorem keys_addToAgg (agg : List (String × Row)) (key : String) (rd : PyDate)
    (name : String) (n : Int) :
    (addToAgg agg key rd name n).map Prod.fst =
      if key ∈ agg.map Prod.fst then agg.map Prod.fst else agg.map Prod.fst ++ [key] := by
  induction agg with
  | nil => simp [addToAgg]
  | cons q rest ih =>
    obtain ⟨k, e⟩ := q
    by_cases hkey : k = key
    · subst hkey
      simp [addToAgg]
    · by_cases hm : key ∈ rest.map Prod.fst
      · simp [addToAgg, hkey, ih, hm, Ne.symm hkey]
      · simp [addToAgg, hkey, ih, hm, Ne.symm hkey]

theorem keys_foldl (l : List RawRecord) :
    ∀ (rd : Option PyDate) (agg : List (String × Row)),
      ((l.foldl step (rd, agg)).2).map Prod.fst =
        dedupInto (agg.map Prod.fst) (succCodes l) := by
  induction l with
  | nil => intro rd agg; simp [succCodes_nil, dedupInto]
  | cons r l ih =>
    intro rd agg
    rw [List.foldl_cons, succCodes_cons]
    rcases hd : recordParsedDate r with _ | dt
    · have hfull : normalizeFull r = none := by simp [normalizeFull, hd]
      rw [show step (rd, agg) r = (rd, agg) by simp [step, hd], hfull, ih]
    · rcases hn : normalizeRest r with _ | ⟨code, name, n⟩
      · have hfull : normalizeFull r = none := by simp [normalizeFull, hd, hn]
        rw [show step (rd, agg) r = (some (rd.getD dt), agg) by simp [step, hd, hn], hfull,
          ih]
      · have hfull : normalizeFull r = some ⟨dt, code, name, n⟩ := by
          simp [normalizeFull, hd, hn]
        rw [show step (rd, agg) r =
            (some (rd.getD dt), addToAgg agg code (rd.getD dt) name n) by simp [step, hd, hn],
          hfull, ih, keys_addToAgg, dedupInto_cons]

/-! Non-negativity of totals under non-negative per-record counts. -/

theorem nonneg_addToAgg (agg : List (String × Row)) (key : String) (rd : PyDate)
    (name : String) (n : Int)
    (h : ∀ p ∈ agg, 0 ≤ (p : String × Row).2.total_positive_cases) (hn : 0 ≤ n) :
    ∀ p ∈ addToAgg agg key rd name n, 0 ≤ p.2.total_positive_cases := by
  induction agg with
  | nil => simpa [addToAgg] using hn
  | cons q rest ih =>
    obtain ⟨k, e⟩ := q
    have hk : 0 ≤ e.total_positive_cases := h (k, e) (by simp)
    have hrest : ∀ p ∈ rest, 0 ≤ (p : String × Row).2.total_positive_cases :=
      fun p hp => h p (by simp [hp])
    by_cases hkey : k = key
    · subst hkey
      intro p hp
      rcases (by simpa [addToAgg] using hp :
          p = (k, { e with total_positive_cases := e.total_positive_cases + n }) ∨ p ∈ rest) with
        h1 | h2
      · subst h1; simpa using add_nonneg hk hn
      · exact hrest p h2
    · intro p hp
      rcases (by simpa [addToAgg, hkey] using hp :
          p = (k, e) ∨ p ∈ addToAgg rest key rd name n) with h1 | h2
      · subst h1; simpa using hk
      · exact ih hrest p h2

theorem nonneg_foldl (l : List RawRecord) :
    ∀ (rd : Option PyDate) (agg : List (String × Row)),
      (∀ p ∈ agg, 0 ≤ (p : String × Row).2.total_positive_cases) →
      (∀ r ∈ l, ∀ q : Row, normalizeFull r = some q → 0 ≤ q.total_positive_cases) →
      ∀ p ∈ (l.foldl step (rd, agg)).2, 0 ≤ p.2.total_positive_cases := by
  induction l with
  | nil => intro rd agg h _; simpa using h
  | cons r l ih =>
    intro rd agg h hl
    have hl' : ∀ r' ∈ l, ∀ q : Row, normalizeFull r' = some q → 0 ≤ q.total_positive_cases :=
      fun r' hr' => hl r' (by simp [hr'])
    rw [List.foldl_cons]
    rcases hd : recordParsedDate r with _ | dt
    · rw [show step (rd, agg) r = (rd, agg) by simp [step, hd]]
      exact ih rd agg h hl'
    · rcases hn : normalizeRest r with _ | ⟨code, name, n⟩
      · rw [show step (rd, agg) r = (some (rd.getD dt), agg) by simp [step, hd, hn]]
        exact ih _ agg h hl'
      · have hfull : normalizeFull r = some ⟨dt, code, name, n⟩ := by
          simp [normalizeFull, hd, hn]
        have hn0 : (0 : Int) ≤ n := by
          simpa using hl r (by simp) ⟨dt, code, name, n⟩ hfull
        rw [show step (rd, agg) r =
            (some (rd.getD dt), addToAgg agg code (rd.getD dt) name n) by simp [step, hd, hn]]
        exact ih _ _ (nonneg_addToAgg agg code (rd.getD dt) name n h hn0) hl'

/-! Store lemmas: behaviour of the per-row upsert and the commit. -/

theorem hasKeyCode_cons (x : Row) (xs : Store) (r : Row) :
    hasKeyCode (x :: xs) r =
      (decide (x.submission_date = r.submission_date ∧ x.region_code = r.region_code) ||
        hasKeyCode xs r) := by
  simp [hasKeyCode]

theorem upsertOne_not_found (s : Store) (r : Row) (h : hasKeyCode s r = false) :
    upsertOne s r = s ++ [r] := by
  induction s with
  | nil => rfl
  | cons x xs ih =>
    rw [hasKeyCode_cons, Bool.or_eq_false_iff] at h
    have hx : ¬(x.submission_date = r.submission_date ∧ x.region_code = r.region_code) :=
      of_decide_eq_false h.1
    rw [show upsertOne (x :: xs) r = x :: upsertOne xs r by simp [upsertOne, hx], ih h.2,
      List.cons_append]

theorem upsertOne_found (s : Store) (r : Row) (h : hasKeyCode s r = true) :
    ∃ l₁ x l₂, s = l₁ ++ x :: l₂ ∧
      (x.submission_date = r.submission_date ∧ x.region_code = r.region_code) ∧
      (∀ y ∈ l₁, ¬(y.submission_date = r.submission_date ∧ y.region_code = r.region_code)) ∧
      upsertOne s r = l₁ ++ r :: l₂ := by
  induction s with
  | nil => simp [hasKeyCode] at h
  | cons x xs ih =>
    by_cases hx : x.submission_date = r.submission_date ∧ x.region_code = r.region_code
    · exact ⟨[], x, xs, rfl, hx, by simp, by simp [upsertOne, hx]⟩
    · rw [hasKeyCode_cons, Bool.or_eq_true_iff] at h
      rcases h with h1 | h2
      · exact absurd (of_decide_eq_true h1) hx
      · obtain ⟨l₁, y, l₂, hs, hy, hnone, heq⟩ := ih h2
        refine ⟨x :: l₁, y, l₂, by rw [hs, List.cons_append], hy, ?_, ?_⟩
        · intro z hz
          rcases List.mem_cons.mp hz with h3 | h4
          · subst h3; exact hx
          · exact hnone z h4
        · rw [show upsertOne (x :: xs) r = x :: upsertOne xs r by simp [upsertOne, hx], heq,
            List.cons_append]

theorem hasKeyCode_upsertOne_self (s : Store) (r : Row) :
    hasKeyCode (upsertOne s r) r = true := by
  induction s with
  | nil => simp [upsertOne, hasKeyCode]
  | cons x xs ih =>
    by_cases hx : x.submission_date = r.submission_date ∧ x.region_code = r.region_code
    · simp [upsertOne, hx, hasKeyCode]
    · rw [show upsertOne (x :: xs) r = x :: upsertOne xs r by simp [upsertOne, hx],
        hasKeyCode_cons, ih, Bool.or_true]

theorem hasKeyCode_upsertOne_mono (s : Store) (r w : Row) (h : hasKeyCode s r = true) :
    hasKeyCode (upsertOne s w) r = true := by
  induction s with
  | nil => simp [hasKeyCode] at h
  | cons x xs ih =>
    rw [hasKeyCode_cons, Bool.or_eq_true_iff] at h
    by_cases hx : x.submission_date = w.submission_date ∧ x.region_code = w.region_code
    · rw [show upsertOne (x :: xs) w = w :: xs by simp [upsertOne, hx], hasKeyCode_cons]
      rcases h with h1 | h2
      · have hxr := of_decide_eq_true h1
        have : w.submission_date = r.submission_date ∧ w.region_code = r.region_code :=
          ⟨hx.1 ▸ hxr.1, hx.2 ▸ hxr.2⟩
        rw [decide_eq_true this, Bool.true_or]
      · rw [h2, Bool.or_true]
    · rw [show upsertOne (x :: xs) w = x :: upsertOne xs w by simp [upsertOne, hx],
        hasKeyCode_cons]
      rcases h with h1 | h2
      · rw [h1, Bool.true_or]
      · rw [ih h2, Bool.or_true]

theorem hasKeyCode_applyBatch_mono (b : List Row) :
    ∀ (s : Store) (r : Row), hasKeyCode s r = true → hasKeyCode (applyBatch s b) r = true := by
  induction b with
  | nil => intro s r h; simpa [applyBatch] using h
  | cons w b ih =>
    intro s r h
    rw [show applyBatch s (w :: b) = applyBatch (upsertOne s w) b by simp [applyBatch]]
    exact ih _ r (hasKeyCode_upsertOne_mono s r w h)

theorem hasKeyCode_applyBatch_mem (b : List Row) :
    ∀ (s : Store) (r : Row), r ∈ b → hasKeyCode (applyBatch s b) r = true := by
  induction b with
  | nil => intro s r h; simp at h
  | cons w b ih =>
    intro s r h
    rw [show applyBatch s (w :: b) = applyBatch (upsertOne s w) b by simp [applyBatch]]
    rcases List.mem_cons.mp h with h1 | h2
    · subst h1
      exact hasKeyCode_applyBatch_mono b _ r (hasKeyCode_upsertOne_self s r)
    · exact ih _ r h2

theorem postStore_of_dup (s : Store) (b : List Row)
    (h : hasDupName (applyBatch s b) = true) : postStore s b = s := by
  simp [postStore, create_or_update_bulk, h]

theorem postStore_of_ok (s : Store) (b : List Row)
    (h : hasDupName (applyBatch s b) = false) : postStore s b = applyBatch s b := by
  simp [postStore, create_or_update_bulk, h]

/-! Order lemmas: the default sort relation is total and transitive. -/

theorem charListLe_total : ∀ cs ds, charListLe cs ds = true ∨ charListLe ds cs = true := by
  intro cs
  induction cs with
  | nil => intro ds; left; simp [charListLe]
  | cons c cs ih =>
    intro ds
    cases ds with
    | nil => right; simp [charListLe]
    | cons d ds =>
      rcases Nat.lt_trichotomy c.toNat d.toNat with hlt | heq | hgt
      · left; simp [charListLe, hlt]
      · rcases ih ds with h | h
        · left; simp [charListLe, heq, h]
        · right; simp [charListLe, heq, h]
      · right; simp [charListLe, hgt]

theorem charListLe_trans :
    ∀ as bs cs, charListLe as bs = true → charListLe bs cs = true →
      charListLe as cs = true := by
  intro as
  induction as with
  | nil => intro bs cs h1 h2; simp [charListLe]
  | cons a as ih =>
    intro bs cs h1 h2
    cases bs with
    | nil => simp [charListLe] at h1
    | cons b bs =>
      cases cs with
      | nil => simp [charListLe] at h2
      | cons c cs =>
        simp only [charListLe] at h1 h2 ⊢
        split_ifs at h1 h2 ⊢ <;> try rfl
        all_goals try omega
        all_goals exact ih bs cs h1 h2

theorem defaultLe_total (a b : Row) : defaultLe a b = true ∨ defaultLe b a = true := by
  by_cases h : a.total_positive_cases = b.total_positive_cases
  · rcases charListLe_total a.region_name.data b.region_name.data with hc | hc
    · left; simp [defaultLe, h, strLe, hc]
    · right; simp [defaultLe, h.symm, strLe, hc]
  · rcases le_total a.total_positive_cases b.total_positive_cases with hle | hle
    · right; simp [defaultLe, Ne.symm h, hle]
    · left; simp [defaultLe, h, hle]

theorem defaultLe_trans (a b c : Row) (h1 : defaultLe a b = true)
    (h2 : defaultLe b c = true) : defaultLe a c = true := by
  by_cases hab : a.total_positive_cases = b.total_positive_cases <;>
    by_cases hbc : b.total_positive_cases = c.total_positive_cases
  · simp only [defaultLe, if_pos hab] at h1
    simp only [defaultLe, if_pos hbc] at h2
    simp only [defaultLe, if_pos (hab.trans hbc)]
    exact charListLe_trans _ _ _ h1 h2
  · simp only [defaultLe, if_neg hbc] at h2
    have hac : ¬ a.total_positive_cases = c.total_positive_cases := by
      rw [hab]; exact hbc
    simp only [defaultLe, if_neg hac]
    rw [hab]
    exact h2
  · simp only [defaultLe, if_neg hab] at h1
    have hac : ¬ a.total_positive_cases = c.total_positive_cases := by
      rw [← hbc]; exact hab
    simp only [defaultLe, if_neg hac]
    rw [← hbc]
    exact h1
  · simp only [defaultLe, if_neg hab, decide_eq_true_eq] at h1
    simp only [defaultLe, if_neg hbc, decide_eq_true_eq] at h2
    have hac : ¬ a.total_positive_cases = c.total_positive_cases := by omega
    simp only [defaultLe, if_neg hac, decide_eq_true_eq]
    omega

instance : IsTotal Row defaultRel := ⟨fun a b => defaultLe_total a b⟩

instance : IsTrans Row defaultRel := ⟨fun a b c => defaultLe_trans a b c⟩

/-! Concrete records used by witnesses and counterexamples. -/

/-- Valid Lazio province row, 300 cases. -/
def w12a : RawRecord := ⟨.strV "2020-03-15T17:00:00", .strV "12", .strV "Lazio", .strV "300"⟩

/-- Valid Lazio province row, 50 cases. -/
def w12b : RawRecord := ⟨.strV "2020-03-15T17:00:00", .strV "12", .strV "Lazio", .strV "50"⟩

/-- Row with an unparseable case count, as in the source's test block. -/
def xyzRec : RawRecord := ⟨.strV "2020-03-15T17:00:00", .strV "09", .strV "Toscana", .strV "XYZ"⟩

/-! Claim theorems. -/

/-- C2 counterexample: in `[c2bad, c2good]` the only successfully normalized
record is the second, dated 2020-03-16, yet every output row carries
2020-03-15, the date of the first record — which was dropped for its missing
region name.  The adopted date is therefore not the date of the first
successfully normalized record. -/
theorem report_date_counterexample :
    normalizeFull ⟨.strV "2020-03-15T17:00:00", .strV "11", .noneV, .strV "10"⟩ = none ∧
    normalizeFull ⟨.strV "2020-03-16T17:00:00", .strV "12", .strV "Lazio", .strV "5"⟩ =
      some ⟨⟨2020, 3, 16⟩, "12", "Lazio", 5⟩ ∧
    process_provincial_data
        [⟨.strV "2020-03-15T17:00:00", .strV "11", .noneV, .strV "10"⟩,
         ⟨.strV "2020-03-16T17:00:00", .strV "12", .strV "Lazio", .strV "5"⟩] =
      [⟨⟨2020, 3, 15⟩, "12", "Lazio", 5⟩] ∧
    ¬ (⟨2020, 3, 15⟩ : PyDate) = ⟨2020, 3, 16⟩ := by
  decide

/-- C2 as amended: every output row carries the date of the first record
whose date cell parses (even if that record is later dropped by another
validation), and later records carrying a different date still have their
counts summed into their region's total. -/
theorem report_date_from_first_parsed (l : List RawRecord) (c : String) :
    (∀ e ∈ process_provincial_data l, some e.submission_date = firstParsedDate l) ∧
    regionTotal (process_provincial_data l) c = canonSum l c := by
  constructor
  · intro e he
    unfold process_provincial_data at he
    obtain ⟨p, hp, rfl⟩ := List.mem_map.mp he
    have h1 := dates_foldl l none [] (by simp) p hp
    rw [foldl_fst_none l []] at h1
    exact h1
  · exact regionTotal_process l c

/-- C3: a `None` case-count cell and an all-whitespace/empty string cell
normalize to 0 and leave the region total as if absent; a record whose
normalization fails contributes nothing to any region total, and the rest
of the batch aggregates exactly as it would without that record. -/
theorem zero_vs_error_asymmetry (l₁ l₂ : List RawRecord) (r : RawRecord) (q : Row)
    (c : String) (s : String) :
    (get_int_value RawValue.noneV = some 0) ∧
    (trimChars s.data = [] → get_int_value (RawValue.strV s) = some 0) ∧
    (normalizeFull r = some q →
      regionTotal (process_provincial_data (l₁ ++ r :: l₂)) q.region_code =
        q.total_positive_cases +
          regionTotal (process_provincial_data (l₁ ++ l₂)) q.region_code) ∧
    (normalizeFull r = none →
      regionTotal (process_provincial_data (l₁ ++ r :: l₂)) c =
        regionTotal (process_provincial_data (l₁ ++ l₂)) c) := by
  refine ⟨rfl, ?_, ?_, ?_⟩
  · intro h
    simp [get_int_value, h]
  · intro h
    rw [regionTotal_process, regionTotal_process, canonSum_append, canonSum_cons,
      canonSum_append, h]
    simp
    ring
  · intro h
    rw [regionTotal_process, regionTotal_process, canonSum_append, canonSum_cons,
      canonSum_append, h]
    simp

/-- C3 witness: the source's `'XYZ'` record is dropped without touching the
Lazio total, and a `None` cell reads as 0. -/
theorem zero_vs_error_witness :
    normalizeFull xyzRec = none ∧
    regionTotal (process_provincial_data ([w12a] ++ xyzRec :: [w12b])) "12" =
      regionTotal (process_provincial_data ([w12a] ++ [w12b])) "12" ∧
    get_int_value RawValue.noneV = some 0 := by
  refine ⟨by decide, ?_, ?_⟩
  · exact (zero_vs_error_asymmetry [w12a] [w12b] xyzRec ⟨⟨0, 1, 1⟩, "", "", 0⟩ "12"
      " ").2.2.2 (by decide)
  · exact (zero_vs_error_asymmetry [w12a] [w12b] xyzRec ⟨⟨0, 1, 1⟩, "", "", 0⟩ "12" " ").1

/-- C4: the total a region code receives is invariant under permutation of
the input, equals the sum of the normalized case counts of that code's
records, and — when every record of the batch normalizes to that code —
equals the plain sum over all of the batch's normalized members. -/
theorem aggregation_permutation_invariant (l l' : List RawRecord) (c : String)
    (h : l.Perm l') :
    regionTotal (process_provincial_data l) c =
      regionTotal (process_provincial_data l') c ∧
    regionTotal (process_provincial_data l) c = canonSum l c ∧
    ((∀ r ∈ l, ∃ q : Row, normalizeFull r = some q ∧ q.region_code = c) →
      regionTotal (process_provincial_data l) c =
        ((l.filterMap normalizeFull).map (fun q => q.total_positive_cases)).sum) := by
  refine ⟨?_, regionTotal_process l c, ?_⟩
  · rw [regionTotal_process, regionTotal_process]
    exact List.Perm.sum_eq
      (List.Perm.map _ (List.Perm.filter _ (List.Perm.filterMap normalizeFull h)))
  · intro hv
    rw [regionTotal_process]
    unfold canonSum
    have hf : (l.filterMap normalizeFull).filter (fun q => decide (q.region_code = c)) =
        l.filterMap normalizeFull := by
      apply List.filter_eq_self.mpr
      intro q hq
      obtain ⟨r, hr, hnr⟩ := List.mem_filterMap.mp hq
      obtain ⟨q', hq', hcq⟩ := hv r hr
      rw [hnr] at hq'
      cases Option.some.inj hq'
      exact decide_eq_true hcq
    rw [hf]

/-- C4 witness: the spec's own scenario — two Lazio rows of 300 and 50
cases give 350 in either order. -/
theorem aggregation_permutation_witness :
    regionTotal (process_provincial_data [w12a, w12b]) "12" =
      regionTotal (process_provincial_data [w12b, w12a]) "12" ∧
    regionTotal (process_provincial_data [w12a, w12b]) "12" = canonSum [w12a, w12b] "12" ∧
    regionTotal (process_provincial_data [w12a, w12b]) "12" = 350 := by
  refine ⟨(aggregation_permutation_invariant [w12a, w12b] [w12b, w12a] "12" (by decide)).1,
    (aggregation_permutation_invariant [w12a, w12b] [w12b, w12a] "12" (by decide)).2.1,
    by decide⟩

/-- C9 counterexample: a record whose case-count cell is the string "-5" is
accepted by normalization and yields an output row with
total_positive_cases = -5 < 0: `process_provincial_data` alone does not
guarantee non-negative totals. -/
theorem negative_count_counterexample :
    get_int_value (RawValue.strV "-5") = some (-5) ∧
    process_provincial_data
        [⟨.strV "2020-03-15T17:00:00", .strV "9", .strV "Toscana", .strV "-5"⟩] =
      [⟨⟨2020, 3, 15⟩, "9", "Toscana", -5⟩] ∧
    ¬ (0 : Int) ≤ -5 := by
  decide

/-- C9 as amended: when every successfully normalized record carries a
non-negative count, every output row's total is non-negative; the
non-negativity of persisted rows is enforced by the pydantic schema bound
(`ge=0`), not by the processor. -/
theorem totals_nonneg_under_nonneg_counts (l : List RawRecord)
    (h : ∀ q ∈ l.filterMap normalizeFull, 0 ≤ q.total_positive_cases) :
    (∀ e ∈ process_provincial_data l, 0 ≤ e.total_positive_cases) ∧
    (∀ row : Row, schemaValid row = true → 0 ≤ row.total_positive_cases) := by
  constructor
  · intro e he
    unfold process_provincial_data at he
    obtain ⟨p, hp, rfl⟩ := List.mem_map.mp he
    exact nonneg_foldl l none [] (by simp)
      (fun r hr q hq => h q (List.mem_filterMap.mpr ⟨r, hr, hq⟩)) p hp
  · intro row hr
    have := of_decide_eq_true hr
    exact this.2.2.2

/-- C9 witness: the Lazio batch has non-negative counts, so both output
rows are non-negative; and a schema-valid row is non-negative. -/
theorem totals_nonneg_witness :
    (∀ e ∈ process_provincial_data [w12a, w12b], 0 ≤ e.total_positive_cases) ∧
    schemaValid ⟨⟨2020, 3, 15⟩, "12", "Lazio", 350⟩ = true := by
  refine ⟨(totals_nonneg_under_nonneg_counts [w12a, w12b] (by decide)).1, by decide⟩

/-- C10: the output's region codes are exactly the distinct region codes of
the successfully normalized records, in order of first occurrence — the
i-th output row corresponds to the i-th distinct code encountered. -/
theorem output_order_first_occurrence (l : List RawRecord) :
    (process_provincial_data l).map (fun e => e.region_code) =
      dedupInto [] (succCodes l) := by
  have hkeys : ∀ p ∈ (l.foldl step ((none : Option PyDate),
      ([] : List (String × Row)))).2, (p : String × Row).1 = p.2.region_code :=
    key_eq_code_foldl l none [] (by simp)
  unfold process_provincial_data
  rw [List.map_map]
  have hmap : ((l.foldl step ((none : Option PyDate), ([] : List (String × Row)))).2).map
      ((fun e => e.region_code) ∘ Prod.snd) =
      ((l.foldl step ((none : Option PyDate), ([] : List (String × Row)))).2).map Prod.fst := by
    apply List.map_congr_left
    intro p hp
    exact (hkeys p hp).symm
  rw [hmap, keys_foldl l none []]
  simp

/-- C1 counterexample: the store holds (2020-03-15, code "1", name "A") and
the batch carries (2020-03-15, code "1", name "B").  No stored row has the
incoming (submission_date, region_name) pair, so the claim predicts an
insertion; instead the stored row is overwritten (matched on region_code):
afterwards the store has one row and the original row is gone. -/
theorem upsert_name_match_counterexample :
    (∀ x ∈ ([⟨⟨2020, 3, 15⟩, "1", "A", 5⟩] : Store),
      ¬(x.submission_date = (⟨2020, 3, 15⟩ : PyDate) ∧ x.region_name = "B")) ∧
    postStore [⟨⟨2020, 3, 15⟩, "1", "A", 5⟩] [⟨⟨2020, 3, 15⟩, "1", "B", 7⟩] =
      [⟨⟨2020, 3, 15⟩, "1", "B", 7⟩] ∧
    (⟨⟨2020, 3, 15⟩, "1", "A", 5⟩ : Row) ∉
      postStore [⟨⟨2020, 3, 15⟩, "1", "A", 5⟩] [⟨⟨2020, 3, 15⟩, "1", "B", 7⟩] ∧
    (postStore [⟨⟨2020, 3, 15⟩, "1", "A", 5⟩] [⟨⟨2020, 3, 15⟩, "1", "B", 7⟩]).length ≠ 2 := by
  decide

/-- C1 as amended: the upsert matches stored rows on
(submission_date, region_code) — an incoming row whose pair exists
overwrites the first such row's fields in place, one with a fresh pair is
appended — and a store satisfying the (submission_date, region_name)
unique constraint still satisfies it after any upsert (the constraint
rejects violating commits and the transaction rolls back). -/
theorem upsert_key_and_constraint (s : Store) (b : List Row) (r : Row)
    (hs : hasDupName s = false) :
    hasDupName (postStore s b) = false ∧
    (hasKeyCode s r = false → upsertOne s r = s ++ [r]) ∧
    (hasKeyCode s r = true → ∃ l₁ x l₂, s = l₁ ++ x :: l₂ ∧
      (x.submission_date = r.submission_date ∧ x.region_code = r.region_code) ∧
      (∀ y ∈ l₁, ¬(y.submission_date = r.submission_date ∧ y.region_code = r.region_code)) ∧
      upsertOne s r = l₁ ++ r :: l₂) := by
  refine ⟨?_, upsertOne_not_found s r, upsertOne_found s r⟩
  by_cases h : hasDupName (applyBatch s b) = true
  · rw [postStore_of_dup s b h]
    exact hs
  · have hf : hasDupName (applyBatch s b) = false := (Bool.not_eq_true _).mp h
    rw [postStore_of_ok s b hf]
    exact hf

/-- C1 witness: overwrite and append at concrete rows, and the constraint
preserved through a concrete batch. -/
theorem upsert_key_and_constraint_witness :
    hasDupName (postStore [⟨⟨2020, 3, 15⟩, "1", "A", 5⟩] [⟨⟨2020, 3, 15⟩, "1", "B", 7⟩]) =
      false ∧
    upsertOne [⟨⟨2020, 3, 15⟩, "1", "A", 5⟩] ⟨⟨2020, 3, 15⟩, "2", "B", 7⟩ =
      [⟨⟨2020, 3, 15⟩, "1", "A", 5⟩] ++ [⟨⟨2020, 3, 15⟩, "2", "B", 7⟩] := by
  refine ⟨(upsert_key_and_constraint [⟨⟨2020, 3, 15⟩, "1", "A", 5⟩]
      [⟨⟨2020, 3, 15⟩, "1", "B", 7⟩] ⟨⟨2020, 3, 15⟩, "2", "B", 7⟩ (by decide)).1,
    (upsert_key_and_constraint [⟨⟨2020, 3, 15⟩, "1", "A", 5⟩]
      [⟨⟨2020, 3, 15⟩, "1", "B", 7⟩] ⟨⟨2020, 3, 15⟩, "2", "B", 7⟩ (by decide)).2.1
      (by decide)⟩

/-- C6: the bulk upsert is all-or-nothing — either the commit succeeds, the
observed store is exactly the fully-applied session (every batch row's key
present), or the commit fails and the observed store is exactly the
original: no half-written batch is observable. -/
theorem bulk_upsert_atomic (s : Store) (b : List Row) :
    (create_or_update_bulk s b = some (applyBatch s b) ∧ postStore s b = applyBatch s b ∧
      ∀ r ∈ b, hasKeyCode (postStore s b) r = true) ∨
    (create_or_update_bulk s b = none ∧ postStore s b = s) := by
  by_cases h : hasDupName (applyBatch s b) = true
  · right
    exact ⟨by simp [create_or_update_bulk, h], postStore_of_dup s b h⟩
  · left
    have hf : hasDupName (applyBatch s b) = false := (Bool.not_eq_true _).mp h
    refine ⟨by simp [create_or_update_bulk, hf], postStore_of_ok s b hf, ?_⟩
    intro r hr
    rw [postStore_of_ok s b hf]
    exact hasKeyCode_applyBatch_mem b s r hr

/-- C7: with no sort field `get_by_date` returns the date's rows ordered by
total_positive_cases descending then region_name ascending (a permutation
of the date's rows), and a sort field that is not an attribute of the model
class falls back to exactly that default order instead of failing.  The
other `getattr` outcomes behave differently and are outside the fallback: a
mapped column such as `id` sorts by that column (ascending id is the
insertion order), and a truthy non-column attribute such as `metadata`
makes the query raise. -/
theorem get_by_date_default_order (s : Store) (d : PyDate) (f o : String)
    (hf1 : f ∉ mappedColumns) (hf2 : f ∉ nonColumnAttrs) :
    (∃ q, get_by_date s d none o = some q ∧ List.Pairwise defaultRel q ∧
      q.Perm (s.filter (fun r => decide (r.submission_date = d)))) ∧
    get_by_date s d (some f) o = get_by_date s d none o ∧
    get_by_date s d (some "id") "asc" =
      some (s.filter (fun r => decide (r.submission_date = d))) ∧
    get_by_date s d (some "metadata") o = none := by
  refine ⟨⟨List.insertionSort defaultRel (s.filter (fun r => decide (r.submission_date = d))),
      rfl, ?_, ?_⟩, ?_, ?_, ?_⟩
  · exact List.sorted_insertionSort defaultRel
      (s.filter (fun r => decide (r.submission_date = d)))
  · exact List.perm_insertionSort defaultRel
      (s.filter (fun r => decide (r.submission_date = d)))
  · simp [get_by_date, hf1, hf2]
  · simp [get_by_date, mappedColumns]
  · simp [get_by_date, mappedColumns, nonColumnAttrs]

/-- C7 witness: a concrete store sorted into the default order, the
non-attribute field "bogus" taking the same path, id-ascending giving the
insertion order, and "metadata" raising. -/
theorem get_by_date_default_order_witness :
    get_by_date [⟨⟨2020, 3, 15⟩, "13", "Abruzzo", 40⟩, ⟨⟨2020, 3, 15⟩, "12", "Lazio", 350⟩]
        ⟨2020, 3, 15⟩ (some "bogus") "desc" =
      get_by_date [⟨⟨2020, 3, 15⟩, "13", "Abruzzo", 40⟩, ⟨⟨2020, 3, 15⟩, "12", "Lazio", 350⟩]
        ⟨2020, 3, 15⟩ none "desc" ∧
    get_by_date [⟨⟨2020, 3, 15⟩, "13", "Abruzzo", 40⟩, ⟨⟨2020, 3, 15⟩, "12", "Lazio", 350⟩]
        ⟨2020, 3, 15⟩ none "desc" =
      some [⟨⟨2020, 3, 15⟩, "12", "Lazio", 350⟩, ⟨⟨2020, 3, 15⟩, "13", "Abruzzo", 40⟩] ∧
    get_by_date [⟨⟨2020, 3, 15⟩, "13", "Abruzzo", 40⟩, ⟨⟨2020, 3, 15⟩, "12", "Lazio", 350⟩]
        ⟨2020, 3, 15⟩ (some "id") "asc" =
      some [⟨⟨2020, 3, 15⟩, "13", "Abruzzo", 40⟩, ⟨⟨2020, 3, 15⟩, "12", "Lazio", 350⟩] ∧
    get_by_date [⟨⟨2020, 3, 15⟩, "13", "Abruzzo", 40⟩, ⟨⟨2020, 3, 15⟩, "12", "Lazio", 350⟩]
        ⟨2020, 3, 15⟩ (some "metadata") "desc" = none := by
  refine ⟨(get_by_date_default_order
      [⟨⟨2020, 3, 15⟩, "13", "Abruzzo", 40⟩, ⟨⟨2020, 3, 15⟩, "12", "Lazio", 350⟩]
      ⟨2020, 3, 15⟩ "bogus" "desc" (by decide) (by decide)).2.1,
    by decide,
    (get_by_date_default_order
      [⟨⟨2020, 3, 15⟩, "13", "Abruzzo", 40⟩, ⟨⟨2020, 3, 15⟩, "12", "Lazio", 350⟩]
      ⟨2020, 3, 15⟩ "bogus" "asc" (by decide) (by decide)).2.2.1,
    (get_by_date_default_order
      [⟨⟨2020, 3, 15⟩, "13", "Abruzzo", 40⟩, ⟨⟨2020, 3, 15⟩, "12", "Lazio", 350⟩]
      ⟨2020, 3, 15⟩ "bogus" "desc" (by decide) (by decide)).2.2.2⟩

/-- C5: on a cache miss each failure maps to its one outcome — fetcher
NotFound to sourceDataUnavailable (404), any other fetch error to
upstreamFailure (502), an empty raw sequence to sourceDataUnavailable
(404), and a non-empty raw sequence processing to nothing to
processingFailure (500) — each terminal for the call, with exactly one
upstream fetch and the store untouched. -/
theorem pipeline_error_mapping (s : Store) (d : PyDate) (raw : List RawRecord)
    (hm : data_exists_for_date s d = false) :
    (ensure_data_is_available s d .notFound = (some .sourceDataUnavailable, s, 1) ∧
      httpStatus .sourceDataUnavailable = 404) ∧
    (ensure_data_is_available s d .transportError = (some .upstreamFailure, s, 1) ∧
      httpStatus .upstreamFailure = 502) ∧
    (ensure_data_is_available s d (.ok []) = (some .sourceDataUnavailable, s, 1)) ∧
    (process_provincial_data raw = [] → raw ≠ [] →
      ensure_data_is_available s d (.ok raw) = (some .processingFailure, s, 1) ∧
        httpStatus .processingFailure = 500) := by
  refine ⟨⟨?_, rfl⟩, ⟨?_, rfl⟩, ?_, ?_⟩
  · simp [ensure_data_is_available, hm]
  · simp [ensure_data_is_available, hm]
  · simp [ensure_data_is_available, hm]
  · intro hp hne
    refine ⟨?_, rfl⟩
    simp [ensure_data_is_available, hm, hp, hne]

/-- C5 witness: the four mappings at a concrete empty store, with a raw
batch whose only record lacks its region name and so processes to nothing. -/
theorem pipeline_error_mapping_witness :
    (ensure_data_is_available [] ⟨2020, 3, 15⟩ .notFound =
      (some .sourceDataUnavailable, [], 1)) ∧
    (ensure_data_is_available [] ⟨2020, 3, 15⟩ .transportError =
      (some .upstreamFailure, [], 1)) ∧
    (ensure_data_is_available [] ⟨2020, 3, 15⟩ (.ok []) =
      (some .sourceDataUnavailable, [], 1)) ∧
    (ensure_data_is_available [] ⟨2020, 3, 15⟩
        (.ok [⟨.strV "2020-03-15T17:00:00", .strV "11", .noneV, .strV "10"⟩]) =
      (some .processingFailure, [], 1)) := by
  refine ⟨(pipeline_error_mapping [] ⟨2020, 3, 15⟩
      [⟨.strV "2020-03-15T17:00:00", .strV "11", .noneV, .strV "10"⟩] (by decide)).1.1,
    (pipeline_error_mapping [] ⟨2020, 3, 15⟩
      [⟨.strV "2020-03-15T17:00:00", .strV "11", .noneV, .strV "10"⟩] (by decide)).2.1.1,
    (pipeline_error_mapping [] ⟨2020, 3, 15⟩
      [⟨.strV "2020-03-15T17:00:00", .strV "11", .noneV, .strV "10"⟩] (by decide)).2.2.1,
    ((pipeline_error_mapping [] ⟨2020, 3, 15⟩
      [⟨.strV "2020-03-15T17:00:00", .strV "11", .noneV, .strV "10"⟩] (by decide)).2.2.2
      (by decide) (by decide)).1⟩

/-- C8 counterexample: requesting 2025-01-09 while the feed's batch is dated
2025-01-08 — the first call succeeds and stores the rows under the adopted
date, but the second call for the same requested date misses the cache and
performs one upstream fetch, not zero. -/
theorem cache_gate_counterexample :
    (ensure_data_is_available [] ⟨2025, 1, 9⟩
      (.ok [⟨.strV "2025-01-08T17:00:00", .strV "12", .strV "Lazio", .intV 5⟩])).1 = none ∧
    (ensure_data_is_available
      (ensure_data_is_available [] ⟨2025, 1, 9⟩
        (.ok [⟨.strV "2025-01-08T17:00:00", .strV "12", .strV "Lazio", .intV 5⟩])).2.1
      ⟨2025, 1, 9⟩
      (.ok [⟨.strV "2025-01-08T17:00:00", .strV "12", .strV "Lazio", .intV 5⟩])).2.2 = 1 := by
  decide

/-- C8 as amended: when a call leaves the store with rows for the requested
date (in particular after a first call whose batch's adopted date is the
requested date), a second call for that date performs zero upstream
fetches, leaves the store unchanged, succeeds, and any subsequent read
returns exactly what a read after the first call returns. -/
theorem cache_gate_second_call (s : Store) (d : PyDate) (fr fr' : FetchResult)
    (sb : Option String) (so : String)
    (h : data_exists_for_date (ensure_data_is_available s d fr).2.1 d = true) :
    ensure_data_is_available (ensure_data_is_available s d fr).2.1 d fr' =
      (none, (ensure_data_is_available s d fr).2.1, 0) ∧
    get_by_date (ensure_data_is_available
        (ensure_data_is_available s d fr).2.1 d fr').2.1 d sb so =
      get_by_date (ensure_data_is_available s d fr).2.1 d sb so := by
  set s1 := (ensure_data_is_available s d fr).2.1 with hs1
  have h2 : ensure_data_is_available s1 d fr' = (none, s1, 0) := by
    simp [ensure_data_is_available, h]
  exact ⟨h2, by rw [h2]⟩

/-- C8 witness: the adopted date equals the requested one, so the second
call is served by the existence check with zero fetches. -/
theorem cache_gate_second_call_witness :
    ensure_data_is_available
        (ensure_data_is_available [] ⟨2020, 3, 15⟩ (.ok [w12a, w12b])).2.1
        ⟨2020, 3, 15⟩ (.ok [w12a, w12b]) =
      (none, (ensure_data_is_available [] ⟨2020, 3, 15⟩ (.ok [w12a, w12b])).2.1, 0) ∧
    get_by_date (ensure_data_is_available
        (ensure_data_is_available [] ⟨2020, 3, 15⟩ (.ok [w12a, w12b])).2.1
        ⟨2020, 3, 15⟩ (.ok [w12a, w12b])).2.1 ⟨2020, 3, 15⟩ none "desc" =
      get_by_date (ensure_data_is_available [] ⟨2020, 3, 15⟩ (.ok [w12a, w12b])).2.1
        ⟨2020, 3, 15⟩ none "desc" := by
  exact cache_gate_second_call [] ⟨2020, 3, 15⟩ (.ok [w12a, w12b]) (.ok [w12a, w12b])
    none "desc" (by decide)

end CovidDashboard
